import Mathlib

/-!
Verification of the fixed-step Euler integration engine and the three ODE
models of `src/models.py` (SIR epidemic, Lotka-Volterra with competitor,
zombie outbreak).  Real numbers of the source are modelled as rationals;
the `while t < t_end` loop of `EulerIntegrator.solve` is modelled with an
explicit fuel argument, returning `none` when the fuel runs out before the
loop exits, so that both termination (for positive step size) and
non-termination (for non-positive step size) are expressible.  A model's
`derivatives` is `Option`-valued: the three-way unpacking of the state
vector fails on states whose length is not 3.
-/

/-- Integrator state: holds the fixed step size, as stored by the
constructor of the integrator class.  No validation of the step size is
performed (mirroring the source, whose constructor only stores it). -/
structure EulerIntegrator where
  dt : ℚ

/-- One component-wise Euler update: the list comprehension
`[yi + self.dt * dyi for yi, dyi in zip(y, dy)]` of the source.  Note the
`zip`: the result has the length of the SHORTER of `y` and `dy`. -/
def eulerUpdate (dt : ℚ) (y dy : List ℚ) : List ℚ :=
  (y.zip dy).map fun p => p.1 + dt * p.2

/-- The `while t < t_end` loop of `EulerIntegrator.solve`: each iteration
evaluates the derivative function, updates the state, advances the time
by `dt`, and records the new time and state.  `fuel` bounds the number of
iterations; `none` means the fuel was exhausted while the loop guard was
still true (or the derivative function failed).  Returns the lists of
times and states appended AFTER the initial pair. -/
def solveAux (dt : ℚ) (derivs : List ℚ → ℚ → Option (List ℚ)) :
    ℕ → ℚ → ℚ → List ℚ → Option (List ℚ × List (List ℚ))
  | 0, t, t_end, _y =>
      if t < t_end then none else some ([], [])
  | fuel + 1, t, t_end, y =>
      if t < t_end then
        match derivs y t with
        | none => none
        | some dy =>
            match solveAux dt derivs fuel (t + dt) t_end (eulerUpdate dt y dy) with
            | none => none
            | some r => some ((t + dt) :: r.1, eulerUpdate dt y dy :: r.2)
      else some ([], [])

/-- `EulerIntegrator.solve(derivs, y0, t0, t_end)`: initializes
`times = [t0]`, `states = [y0]` and runs the stepping loop. -/
def EulerIntegrator.solve (self : EulerIntegrator)
    (derivs : List ℚ → ℚ → Option (List ℚ)) (y0 : List ℚ) (t0 t_end : ℚ)
    (fuel : ℕ) : Option (List ℚ × List (List ℚ)) :=
  (solveAux self.dt derivs fuel t0 t_end y0).map fun r => (t0 :: r.1, y0 :: r.2)

/-- The SIR epidemic model's parameters (dataclass fields), with the
source's default step size 0.1. -/
structure SIRModel where
  beta : ℚ
  gamma : ℚ
  s0 : ℚ
  i0 : ℚ
  r0 : ℚ
  dt : ℚ := 1 / 10

/-- Total population, computed once in `__post_init__` as the sum of the
initial compartment counts. -/
def SIRModel.N (m : SIRModel) : ℚ := m.s0 + m.i0 + m.r0

/-- The integrator owned by the model, built by the base-class constructor
from the model's step size. -/
def SIRModel.integrator (m : SIRModel) : EulerIntegrator := ⟨m.dt⟩

/-- `SIRModel.initial_state`: the vector of initial compartment counts. -/
def SIRModel.initial_state (m : SIRModel) : List ℚ := [m.s0, m.i0, m.r0]

/-- `SIRModel.derivatives`: unpacks `s, i, r = y` (which fails unless the
state has length 3) and returns `[ds, di, dr]` per the SIR rate law. -/
def SIRModel.derivatives (m : SIRModel) (y : List ℚ) (_t : ℚ) :
    Option (List ℚ) :=
  match y with
  | [s, i, _r] =>
      some [-m.beta * s * i / m.N,
            m.beta * s * i / m.N - m.gamma * i,
            m.gamma * i]
  | _ => none

/-- `simulate(t_end)`: integrate from time 0 using the model's own initial
state and derivative function. -/
def SIRModel.simulate (m : SIRModel) (t_end : ℚ) (fuel : ℕ) :
    Option (List ℚ × List (List ℚ)) :=
  m.integrator.solve m.derivatives m.initial_state 0 t_end fuel

/-- The predator-prey-competitor model's parameters, with the source's
default step size 0.1. -/
structure LotkaVolterraCompetitor where
  alpha : ℚ
  beta : ℚ
  delta : ℚ
  gamma : ℚ
  prey0 : ℚ
  pred0 : ℚ
  comp_rate : ℚ
  comp0 : ℚ
  dt : ℚ := 1 / 10

/-- The integrator owned by the model. -/
def LotkaVolterraCompetitor.integrator (m : LotkaVolterraCompetitor) :
    EulerIntegrator := ⟨m.dt⟩

/-- `LotkaVolterraCompetitor.initial_state`. -/
def LotkaVolterraCompetitor.initial_state (m : LotkaVolterraCompetitor) :
    List ℚ := [m.prey0, m.pred0, m.comp0]

/-- `LotkaVolterraCompetitor.derivatives`: unpacks
`prey, pred, comp = y` and returns the three rates of the source. -/
def LotkaVolterraCompetitor.derivatives (m : LotkaVolterraCompetitor)
    (y : List ℚ) (_t : ℚ) : Option (List ℚ) :=
  match y with
  | [prey, pred, comp] =>
      some [m.alpha * prey - m.beta * prey * (pred + comp),
            m.delta * prey * pred - m.gamma * pred,
            m.comp_rate * prey * comp - m.gamma * comp]
  | _ => none

/-- `simulate(t_end)` for the competitor model. -/
def LotkaVolterraCompetitor.simulate (m : LotkaVolterraCompetitor)
    (t_end : ℚ) (fuel : ℕ) : Option (List ℚ × List (List ℚ)) :=
  m.integrator.solve m.derivatives m.initial_state 0 t_end fuel

/-- The zombie outbreak model's parameters, with the source's default step
size 0.1. -/
structure ZombieModel where
  beta : ℚ
  alpha : ℚ
  rho : ℚ
  s0 : ℚ
  z0 : ℚ
  r0 : ℚ
  dt : ℚ := 1 / 10

/-- The integrator owned by the model. -/
def ZombieModel.integrator (m : ZombieModel) : EulerIntegrator := ⟨m.dt⟩

/-- `ZombieModel.initial_state`. -/
def ZombieModel.initial_state (m : ZombieModel) : List ℚ :=
  [m.s0, m.z0, m.r0]

/-- `ZombieModel.derivatives`: unpacks `s, z, r = y` and returns the three
rates exactly as written in the source (including the `alpha` term that is
subtracted in both the survivor and zombie components). -/
def ZombieModel.derivatives (m : ZombieModel) (y : List ℚ) (_t : ℚ) :
    Option (List ℚ) :=
  match y with
  | [s, z, r] =>
      some [-m.beta * s * z - m.alpha * s * z,
            m.beta * s * z + m.rho * r - m.alpha * s * z,
            m.alpha * s * z - m.rho * r]
  | _ => none

/-- `simulate(t_end)` for the zombie model. -/
def ZombieModel.simulate (m : ZombieModel) (t_end : ℚ) (fuel : ℕ) :
    Option (List ℚ × List (List ℚ)) :=
  m.integrator.solve m.derivatives m.initial_state 0 t_end fuel

/-- The number of loop iterations performed when the step size is
positive: the ceiling of `(t_end - t0) / dt`, clamped at 0. -/
def stepBound (dt t0 t_end : ℚ) : ℕ := (⌈(t_end - t0) / dt⌉).toNat

/-- Appended times and states have equal length, and each consecutive
(time, state) pair of the full series is related by one loop iteration:
the time advances by exactly the step size and the state by one Euler
update with the derivative evaluated at the previous pair. -/
theorem solveAux_lengths_chain (dt : ℚ) (derivs : List ℚ → ℚ → Option (List ℚ))
    (t_end : ℚ) :
    ∀ (fuel : ℕ) (t : ℚ) (y : List ℚ) (ts : List ℚ) (ys : List (List ℚ)),
      solveAux dt derivs fuel t t_end y = some (ts, ys) →
      ts.length = ys.length ∧
      List.Chain' (fun a b => b.1 = a.1 + dt ∧
          ∃ dy, derivs a.2 a.1 = some dy ∧ b.2 = eulerUpdate dt a.2 dy)
        ((t, y) :: ts.zip ys) := by
  intro fuel
  induction fuel with
  | zero =>
    intro t y ts ys h
    simp only [solveAux] at h
    split_ifs at h
    simp only [Option.some.injEq, Prod.mk.injEq] at h
    obtain ⟨h1, h2⟩ := h
    subst h1; subst h2
    simp
  | succ fuel ih =>
    intro t y ts ys h
    simp only [solveAux] at h
    split_ifs at h with hlt
    · split at h
      · exact absurd h (by simp)
      · rename_i dy hdy
        split at h
        · exact absurd h (by simp)
        · rename_i r hrec
          obtain ⟨ts', ys'⟩ := r
          simp only [Option.some.injEq, Prod.mk.injEq] at h
          obtain ⟨h1, h2⟩ := h
          subst h1; subst h2
          obtain ⟨ihlen, ihchain⟩ := ih (t + dt) (eulerUpdate dt y dy) ts' ys' hrec
          refine ⟨by simp [ihlen], ?_⟩
          simp only [List.zip_cons_cons]
          exact List.chain'_cons.mpr ⟨⟨rfl, dy, hdy, rfl⟩, ihchain⟩
    · simp only [Option.some.injEq, Prod.mk.injEq] at h
      obtain ⟨h1, h2⟩ := h
      subst h1; subst h2
      simp

/-- Any property of states preserved by one Euler update holds at every
recorded state of a successful run. -/
theorem solveAux_invariant (dt : ℚ) (derivs : List ℚ → ℚ → Option (List ℚ))
    (t_end : ℚ) (P : List ℚ → Prop)
    (hstep : ∀ y t dy, P y → derivs y t = some dy → P (eulerUpdate dt y dy)) :
    ∀ (fuel : ℕ) (t : ℚ) (y : List ℚ) (ts : List ℚ) (ys : List (List ℚ)),
      solveAux dt derivs fuel t t_end y = some (ts, ys) →
      P y → ∀ z ∈ ys, P z := by
  intro fuel
  induction fuel with
  | zero =>
    intro t y ts ys h hy
    simp only [solveAux] at h
    split_ifs at h
    simp only [Option.some.injEq, Prod.mk.injEq] at h
    obtain ⟨h1, h2⟩ := h
    subst h2
    simp
  | succ fuel ih =>
    intro t y ts ys h hy
    simp only [solveAux] at h
    split_ifs at h with hlt
    · split at h
      · exact absurd h (by simp)
      · rename_i dy hdy
        split at h
        · exact absurd h (by simp)
        · rename_i r hrec
          obtain ⟨ts', ys'⟩ := r
          simp only [Option.some.injEq, Prod.mk.injEq] at h
          obtain ⟨h1, h2⟩ := h
          subst h2
          intro z hz
          rcases List.mem_cons.mp hz with hz | hz
          · subst hz; exact hstep y t dy hy hdy
          · exact ih (t + dt) (eulerUpdate dt y dy) ts' ys' hrec
              (hstep y t dy hy hdy) z hz
    · simp only [Option.some.injEq, Prod.mk.injEq] at h
      obtain ⟨h1, h2⟩ := h
      subst h2
      simp

/-- The last recorded time of a successful run is at least the requested
end time, and is either below the end time plus one step or is the start
time itself (the case of a run with no iterations). -/
theorem solveAux_last (dt : ℚ) (derivs : List ℚ → ℚ → Option (List ℚ))
    (t_end : ℚ) :
    ∀ (fuel : ℕ) (t : ℚ) (y : List ℚ) (ts : List ℚ) (ys : List (List ℚ)),
      solveAux dt derivs fuel t t_end y = some (ts, ys) →
      ∃ L, (t :: ts).getLast? = some L ∧ t_end ≤ L ∧
        (L < t_end + dt ∨ L = t) := by
  intro fuel
  induction fuel with
  | zero =>
    intro t y ts ys h
    simp only [solveAux] at h
    split_ifs at h with hlt
    simp only [Option.some.injEq, Prod.mk.injEq] at h
    obtain ⟨h1, h2⟩ := h
    subst h1
    exact ⟨t, by simp, not_lt.mp hlt, Or.inr rfl⟩
  | succ fuel ih =>
    intro t y ts ys h
    simp only [solveAux] at h
    split_ifs at h with hlt
    · split at h
      · exact absurd h (by simp)
      · rename_i dy hdy
        split at h
        · exact absurd h (by simp)
        · rename_i r hrec
          obtain ⟨ts', ys'⟩ := r
          simp only [Option.some.injEq, Prod.mk.injEq] at h
          obtain ⟨h1, h2⟩ := h
          subst h1
          obtain ⟨L, hL, hle, hcase⟩ := ih (t + dt) (eulerUpdate dt y dy) ts' ys' hrec
          refine ⟨L, ?_, hle, ?_⟩
          · rw [List.getLast?_cons_cons]
            exact hL
          · rcases hcase with hc | hc
            · exact Or.inl hc
            · exact Or.inl (by rw [hc]; exact add_lt_add_right hlt dt)
    · simp only [Option.some.injEq, Prod.mk.injEq] at h
      obtain ⟨h1, h2⟩ := h
      subst h1
      exact ⟨t, by simp, not_lt.mp hlt, Or.inr rfl⟩

/-- With a positive step size and a total derivative function, fuel
covering the length of the integration interval suffices: the loop
terminates with a result. -/
theorem solveAux_isSome (dt : ℚ) (derivs : List ℚ → ℚ → Option (List ℚ))
    (t_end : ℚ)
    (hderivs : ∀ y t, (derivs y t).isSome) :
    ∀ (fuel : ℕ) (t : ℚ) (y : List ℚ), t_end - t ≤ fuel * dt →
      (solveAux dt derivs fuel t t_end y).isSome := by
  intro fuel
  induction fuel with
  | zero =>
    intro t y hb
    have ht : ¬ t < t_end := by
      simp only [Nat.cast_zero, zero_mul] at hb
      exact not_lt.mpr (by linarith)
    simp [solveAux, ht]
  | succ fuel ih =>
    intro t y hb
    by_cases hlt : t < t_end
    · have hdy := hderivs y t
      rw [Option.isSome_iff_exists] at hdy
      obtain ⟨dy, hdy⟩ := hdy
      have hb' : t_end - (t + dt) ≤ fuel * dt := by
        push_cast at hb ⊢
        linarith
      have hrec := ih (t + dt) (eulerUpdate dt y dy) hb'
      rw [Option.isSome_iff_exists] at hrec
      obtain ⟨r, hrec⟩ := hrec
      simp [solveAux, hlt, hdy, hrec]
    · simp [solveAux, hlt]

/-- With a non-positive step size the loop guard never becomes false once
it is true: the loop runs forever, so every fuel value is exhausted. -/
theorem solveAux_none_of_nonpos (dt : ℚ) (derivs : List ℚ → ℚ → Option (List ℚ))
    (t_end : ℚ) (hdt : dt ≤ 0) :
    ∀ (fuel : ℕ) (t : ℚ) (y : List ℚ), t < t_end →
      solveAux dt derivs fuel t t_end y = none := by
  intro fuel
  induction fuel with
  | zero =>
    intro t y hlt
    simp [solveAux, hlt]
  | succ fuel ih =>
    intro t y hlt
    have hlt' : t + dt < t_end := by linarith
    simp only [solveAux, if_pos hlt]
    split
    · rfl
    · rw [ih (t + dt) _ hlt']

/-- Claim C7: whenever the start time is at least the end time, the loop
guard is false immediately: no integration step is performed and solve
returns exactly the single pair of the start time and the initial state. -/
theorem solve_empty_interval (e : EulerIntegrator)
    (derivs : List ℚ → ℚ → Option (List ℚ)) (y0 : List ℚ) (t0 t_end : ℚ)
    (fuel : ℕ) (h : t_end ≤ t0) :
    e.solve derivs y0 t0 t_end fuel = some ([t0], [y0]) := by
  have hlt : ¬ t0 < t_end := not_lt.mpr h
  cases fuel <;> simp [EulerIntegrator.solve, solveAux, hlt]

/-- Witness for C7: the spec's own boundary example, an empty interval
with start and end both 5 yields the single pair (5, y0). -/
theorem solve_empty_interval_witness :
    ((5:ℚ) ≤ 5) ∧
    EulerIntegrator.solve ⟨1/10⟩ (fun _ _ => some [0, 0, 0]) [1, 2, 3] 5 5 7 =
      some ([5], [[1, 2, 3]]) :=
  ⟨le_refl 5, solve_empty_interval ⟨1/10⟩ _ [1, 2, 3] 5 5 7 (le_refl 5)⟩

/-- Claim C10: with a positive step size (and a derivative function that
always returns a vector), the stepping loop terminates; the ceiling of
(t_end - t0) / dt iterations of fuel suffice for solve to return. -/
theorem solve_terminates (e : EulerIntegrator)
    (derivs : List ℚ → ℚ → Option (List ℚ)) (y0 : List ℚ) (t0 t_end : ℚ)
    (hdt : 0 < e.dt) (hderivs : ∀ y t, (derivs y t).isSome) :
    (e.solve derivs y0 t0 t_end (stepBound e.dt t0 t_end)).isSome := by
  have h3 : (t_end - t0) / e.dt ≤ (stepBound e.dt t0 t_end : ℚ) := by
    refine le_trans (Int.le_ceil ((t_end - t0) / e.dt)) ?_
    exact_mod_cast Int.self_le_toNat ⌈(t_end - t0) / e.dt⌉
  have hb : t_end - t0 ≤ (stepBound e.dt t0 t_end : ℚ) * e.dt := by
    have := mul_le_mul_of_nonneg_right h3 hdt.le
    rwa [div_mul_cancel₀ _ (ne_of_gt hdt)] at this
  have h := solveAux_isSome e.dt derivs t_end hderivs _ t0 y0 hb
  unfold EulerIntegrator.solve
  rcases hsa : solveAux e.dt derivs (stepBound e.dt t0 t_end) t0 t_end y0 with _ | r
  · rw [hsa] at h; simp at h
  · simp

/-- Witness for C10: a concrete run with unit step size over [0, 3]
returns within the computed step bound. -/
theorem solve_terminates_witness :
    ((0:ℚ) < 1) ∧
    (EulerIntegrator.solve ⟨1⟩ (fun y _ => some y) [1] 0 3
      (stepBound 1 0 3)).isSome :=
  ⟨by norm_num,
    solve_terminates ⟨1⟩ (fun y _ => some y) [1] 0 3
      (show (0:ℚ) < 1 by norm_num) (fun _ _ => rfl)⟩

/-- Claim C5: any successful solve run returns time and state lists of
equal length, starting with the given start time and initial state; each
consecutive state is one Euler update of its predecessor (with the
derivative evaluated at the predecessor's time), and consecutive times
are spaced by exactly the step size, hence monotonically non-decreasing
for a positive step size. -/
theorem solve_series_invariants (e : EulerIntegrator)
    (derivs : List ℚ → ℚ → Option (List ℚ)) (y0 : List ℚ) (t0 t_end : ℚ)
    (fuel : ℕ) (times : List ℚ) (states : List (List ℚ))
    (hdt : 0 < e.dt)
    (h : e.solve derivs y0 t0 t_end fuel = some (times, states)) :
    times.length = states.length ∧
    times.head? = some t0 ∧
    states.head? = some y0 ∧
    List.Chain' (fun a b => b = a + e.dt) times ∧
    List.Chain' (fun a b => a ≤ b) times ∧
    List.Chain' (fun a b => ∃ dy, derivs a.2 a.1 = some dy ∧
        b.2 = eulerUpdate e.dt a.2 dy) (times.zip states) := by
  unfold EulerIntegrator.solve at h
  rcases hsa : solveAux e.dt derivs fuel t0 t_end y0 with _ | r
  · rw [hsa] at h; simp at h
  · rw [hsa] at h
    obtain ⟨ts, ys⟩ := r
    simp only [Option.map_some', Option.some.injEq, Prod.mk.injEq] at h
    obtain ⟨h1, h2⟩ := h
    subst h1; subst h2
    obtain ⟨hlen, hchain⟩ :=
      solveAux_lengths_chain e.dt derivs t_end fuel t0 y0 ts ys hsa
    have hzip : (t0 :: ts).zip (y0 :: ys) = (t0, y0) :: ts.zip ys := by
      simp
    have hmapfst : ((t0, y0) :: ts.zip ys).map Prod.fst = t0 :: ts := by
      rw [List.map_cons]
      exact congrArg _ (List.map_fst_zip ts ys (le_of_eq hlen))
    have htimes : List.Chain' (fun a b => b = a + e.dt) (t0 :: ts) := by
      rw [← hmapfst, List.chain'_map]
      exact hchain.imp fun a b hab => hab.1
    refine ⟨by simp [hlen], rfl, rfl, htimes, ?_, ?_⟩
    · exact htimes.imp fun a b hab => by rw [hab]; linarith
    · rw [hzip]
      exact hchain.imp fun a b hab => hab.2

/-- Witness for C5: a concrete two-step run with unit step size, checking
all six conjuncts on the computed series. -/
theorem solve_series_invariants_witness :
    ((0:ℚ) < 1 ∧
      EulerIntegrator.solve ⟨1⟩ (fun y _ => some y) [1] 0 2 2 =
        some ([0, 1, 2], [[1], [2], [4]])) ∧
    (([0, 1, 2] : List ℚ).length = ([[1], [2], [4]] : List (List ℚ)).length ∧
      ([0, 1, 2] : List ℚ).head? = some 0 ∧
      ([[1], [2], [4]] : List (List ℚ)).head? = some [1] ∧
      List.Chain' (fun a b => b = a + (1:ℚ)) [0, 1, 2] ∧
      List.Chain' (fun a b => a ≤ b) ([0, 1, 2] : List ℚ) ∧
      List.Chain' (fun a b => ∃ dy, (fun (y : List ℚ) (_ : ℚ) => some y) a.2 a.1 = some dy ∧
          b.2 = eulerUpdate 1 a.2 dy)
        (([0, 1, 2] : List ℚ).zip [[1], [2], [4]])) :=
  ⟨⟨by norm_num, by norm_num [EulerIntegrator.solve, solveAux, eulerUpdate]⟩,
    solve_series_invariants ⟨1⟩ (fun y _ => some y) [1] 0 2 2 [0, 1, 2]
      [[1], [2], [4]] (show (0:ℚ) < 1 by norm_num)
      (by norm_num [EulerIntegrator.solve, solveAux, eulerUpdate])⟩

/-- Counterexample to C6 as stated: for a negative end time farther than
one step below 0, simulate returns the single time 0, which satisfies
times[-1] >= t_end but NOT times[-1] < t_end + step_size: here the last
time is 0 while t_end + dt = -1 + 1/10 = -9/10. -/
theorem simulate_end_window_cex :
    (SIRModel.mk 1 1 1 1 0 (1/10)).simulate (-1) 0 = some ([0], [[1, 1, 0]]) ∧
    ([(0:ℚ)] : List ℚ).getLast? = some 0 ∧
    (-1 : ℚ) ≤ 0 ∧
    ¬ ((0:ℚ) < -1 + 1/10) := by
  refine ⟨?_, by simp, by norm_num, by norm_num⟩
  norm_num [SIRModel.simulate, SIRModel.integrator, SIRModel.initial_state,
    EulerIntegrator.solve, solveAux]

/-- Claim C6 amended: for a positive step size and any end time greater
than minus one step (in particular any non-negative end time), a
successful run started at time 0 - which is what simulate of every model
performs - begins at time 0 and its last time lands in
[t_end, t_end + dt).  (For t_end <= -dt the last time is 0, which is not
below t_end + dt.) -/
theorem solve_end_window (e : EulerIntegrator)
    (derivs : List ℚ → ℚ → Option (List ℚ)) (y0 : List ℚ) (t_end : ℚ)
    (fuel : ℕ) (times : List ℚ) (states : List (List ℚ))
    (hdt : 0 < e.dt) (ht : -e.dt < t_end)
    (h : e.solve derivs y0 0 t_end fuel = some (times, states)) :
    times.head? = some 0 ∧
    ∃ L, times.getLast? = some L ∧ t_end ≤ L ∧ L < t_end + e.dt := by
  unfold EulerIntegrator.solve at h
  rcases hsa : solveAux e.dt derivs fuel 0 t_end y0 with _ | r
  · rw [hsa] at h; simp at h
  · rw [hsa] at h
    obtain ⟨ts, ys⟩ := r
    simp only [Option.map_some', Option.some.injEq, Prod.mk.injEq] at h
    obtain ⟨h1, h2⟩ := h
    subst h1
    obtain ⟨L, hL, hle, hcase⟩ := solveAux_last e.dt derivs t_end fuel 0 y0 ts ys hsa
    refine ⟨rfl, L, hL, hle, ?_⟩
    rcases hcase with hc | hc
    · exact hc
    · rw [hc]; linarith

/-- Witness for the amended C6: a concrete SIR run from 0 to 1 with unit
step whose last recorded time is 1, inside [1, 1 + 1). -/
theorem solve_end_window_witness :
    ((0:ℚ) < 1 ∧ (-1 : ℚ) < 1 ∧
      (SIRModel.mk 1 1 1 1 0 1).simulate 1 1 =
        some ([0, 1], [[1, 1, 0], [1/2, 1/2, 1]])) ∧
    (([0, 1] : List ℚ).head? = some 0 ∧
      ∃ L, ([0, 1] : List ℚ).getLast? = some L ∧ (1:ℚ) ≤ L ∧ L < 1 + 1) :=
  ⟨⟨by norm_num, by norm_num,
      by norm_num [SIRModel.simulate, SIRModel.integrator, SIRModel.initial_state,
        SIRModel.derivatives, SIRModel.N, EulerIntegrator.solve, solveAux, eulerUpdate]⟩,
    solve_end_window (SIRModel.mk 1 1 1 1 0 1).integrator
      (SIRModel.mk 1 1 1 1 0 1).derivatives (SIRModel.mk 1 1 1 1 0 1).initial_state
      1 1 [0, 1] [[1, 1, 0], [1/2, 1/2, 1]]
      (show (0:ℚ) < 1 by norm_num) (show (-1:ℚ) < 1 by norm_num)
      (by norm_num [SIRModel.simulate, SIRModel.integrator, SIRModel.initial_state,
        SIRModel.derivatives, SIRModel.N, EulerIntegrator.solve, solveAux, eulerUpdate])⟩

/-- Counterexample to C1 as stated: a derivative function returning a
vector of length 1 against a state of length 2 does not make solve fail;
the run succeeds and the state is silently truncated to length 1 by the
zip in the update. -/
theorem solve_truncates_cex :
    EulerIntegrator.solve ⟨1⟩ (fun _ _ => some [5]) [1, 2] 0 1 1 =
      some ([0, 1], [[1, 2], [6]]) ∧
    ([1, 2] : List ℚ).length = 2 ∧ ([6] : List ℚ).length = 1 := by
  refine ⟨?_, by simp, by simp⟩
  norm_num [EulerIntegrator.solve, solveAux, eulerUpdate]

/-- Claim C1 amended: no dimension check exists; the per-step update zips
the state with the derivative vector, so the new state always has the
length of the shorter of the two (extra entries of either are silently
dropped; in particular a shorter derivative vector shrinks the state). -/
theorem eulerUpdate_length (dt : ℚ) (y dy : List ℚ) :
    (eulerUpdate dt y dy).length = min y.length dy.length := by
  simp [eulerUpdate]

/-- Counterexample to C2 as stated: constructing an integrator - directly
or through a model - with step size 0 succeeds and yields an instance
whose stored step size is 0; no constructor-time error exists. -/
theorem integrator_no_dt_validation_cex :
    (EulerIntegrator.mk 0).dt = 0 ∧
    ((SIRModel.mk 1 1 1 1 0 0).integrator).dt = 0 :=
  ⟨rfl, rfl⟩

/-- Claim C2 amended: the constructors store the step size unchecked, and
with a non-positive step size and t_start < t_end the solve loop never
exits: every fuel value is exhausted (the loop guard stays true forever). -/
theorem solve_diverges_nonpos_dt (e : EulerIntegrator)
    (derivs : List ℚ → ℚ → Option (List ℚ)) (y0 : List ℚ) (t0 t_end : ℚ)
    (fuel : ℕ) (hdt : e.dt ≤ 0) (ht : t0 < t_end) :
    e.solve derivs y0 t0 t_end fuel = none := by
  unfold EulerIntegrator.solve
  rw [solveAux_none_of_nonpos e.dt derivs t_end hdt fuel t0 y0 ht]
  rfl

/-- Witness for the amended C2: a zero step size over the interval [0, 1]
exhausts five units of fuel without returning. -/
theorem solve_diverges_nonpos_dt_witness :
    ((0:ℚ) ≤ 0 ∧ (0:ℚ) < 1) ∧
    EulerIntegrator.solve ⟨0⟩ (fun y _ => some y) [1] 0 1 5 = none :=
  ⟨⟨le_refl 0, by norm_num⟩,
    solve_diverges_nonpos_dt ⟨0⟩ (fun y _ => some y) [1] 0 1 5
      (le_refl 0) (by norm_num)⟩

/-- Counterexample to C3 as stated: with all three initial populations
positive and comp_rate = 0, the very first recorded state already has a
nonzero competitor component (it is comp0, not 0): the claim's hypothesis
of positive initial populations contradicts its conclusion. -/
theorem lv_competitor_cex :
    (LotkaVolterraCompetitor.mk 1 1 1 1 1 1 0 1 1).comp_rate = 0 ∧
    (0:ℚ) < (LotkaVolterraCompetitor.mk 1 1 1 1 1 1 0 1 1).prey0 ∧
    (0:ℚ) < (LotkaVolterraCompetitor.mk 1 1 1 1 1 1 0 1 1).pred0 ∧
    (0:ℚ) < (LotkaVolterraCompetitor.mk 1 1 1 1 1 1 0 1 1).comp0 ∧
    (LotkaVolterraCompetitor.mk 1 1 1 1 1 1 0 1 1).simulate 0 0 =
      some ([0], [[1, 1, 1]]) ∧
    ¬ (([1, 1, 1] : List ℚ)[2]? = some 0) := by
  refine ⟨rfl, by norm_num, by norm_num, by norm_num, ?_, by simp⟩
  norm_num [LotkaVolterraCompetitor.simulate, LotkaVolterraCompetitor.integrator,
    LotkaVolterraCompetitor.initial_state, EulerIntegrator.solve, solveAux]

/-- Claim C3 amended: whenever the INITIAL competitor population is 0
(for any comp_rate), every state produced by simulate has competitor
component exactly 0: both competitor rate terms are proportional to the
competitor itself, so 0 is a fixed point of that component. -/
theorem lv_competitor_stays_zero (m : LotkaVolterraCompetitor) (t_end : ℚ)
    (fuel : ℕ) (times : List ℚ) (states : List (List ℚ))
    (hc : m.comp0 = 0)
    (h : m.simulate t_end fuel = some (times, states)) :
    ∀ z ∈ states, z[2]? = some (0:ℚ) := by
  have hstep : ∀ y t dy, (∃ a b, y = [a, b, 0]) →
      m.derivatives y t = some dy →
      (∃ a b, eulerUpdate m.dt y dy = [a, b, 0]) := by
    rintro y t dy ⟨a, b, rfl⟩ hdy
    have hval : m.derivatives [a, b, (0:ℚ)] t =
        some [m.alpha * a - m.beta * a * (b + 0),
              m.delta * a * b - m.gamma * b,
              m.comp_rate * a * 0 - m.gamma * 0] := rfl
    rw [hval] at hdy
    injection hdy with hdy
    subst hdy
    refine ⟨a + m.dt * (m.alpha * a - m.beta * a * (b + 0)),
            b + m.dt * (m.delta * a * b - m.gamma * b), ?_⟩
    have hupd : eulerUpdate m.dt [a, b, (0:ℚ)]
        [m.alpha * a - m.beta * a * (b + 0),
         m.delta * a * b - m.gamma * b,
         m.comp_rate * a * 0 - m.gamma * 0] =
        [a + m.dt * (m.alpha * a - m.beta * a * (b + 0)),
         b + m.dt * (m.delta * a * b - m.gamma * b),
         0 + m.dt * (m.comp_rate * a * 0 - m.gamma * 0)] := rfl
    rw [hupd]
    norm_num
  have h' : (solveAux m.dt m.derivatives fuel 0 t_end m.initial_state).map
      (fun r => ((0:ℚ) :: r.1, m.initial_state :: r.2)) = some (times, states) := h
  rcases hsa : solveAux m.dt m.derivatives fuel 0 t_end m.initial_state with _ | r
  · rw [hsa] at h'; simp at h'
  · rw [hsa] at h'
    obtain ⟨ts, ys⟩ := r
    simp only [Option.map_some', Option.some.injEq, Prod.mk.injEq] at h'
    obtain ⟨h1, h2⟩ := h'
    subst h2
    have hinit : ∃ a b, m.initial_state = [a, b, 0] :=
      ⟨m.prey0, m.pred0, by simp [LotkaVolterraCompetitor.initial_state, hc]⟩
    have hinv := solveAux_invariant m.dt m.derivatives t_end
      (fun y => ∃ a b, y = [a, b, 0]) hstep fuel 0 m.initial_state ts ys hsa hinit
    intro z hz
    rcases List.mem_cons.mp hz with hz | hz
    · subst hz
      obtain ⟨a, b, hab⟩ := hinit
      rw [hab]; rfl
    · obtain ⟨a, b, hab⟩ := hinv z hz
      rw [hab]; rfl

/-- Witness for the amended C3: a concrete run with zero initial
competitor whose two recorded states both have competitor component 0. -/
theorem lv_competitor_stays_zero_witness :
    ((LotkaVolterraCompetitor.mk 1 1 1 1 1 1 1 0 1).comp0 = 0 ∧
      (LotkaVolterraCompetitor.mk 1 1 1 1 1 1 1 0 1).simulate 1 1 =
        some ([0, 1], [[1, 1, 0], [1, 1, 0]])) ∧
    ∀ z ∈ ([[1, 1, 0], [1, 1, 0]] : List (List ℚ)), z[2]? = some (0:ℚ) :=
  ⟨⟨rfl, by norm_num [LotkaVolterraCompetitor.simulate,
      LotkaVolterraCompetitor.integrator, LotkaVolterraCompetitor.initial_state,
      LotkaVolterraCompetitor.derivatives, EulerIntegrator.solve, solveAux,
      eulerUpdate]⟩,
    lv_competitor_stays_zero (LotkaVolterraCompetitor.mk 1 1 1 1 1 1 1 0 1)
      1 1 [0, 1] [[1, 1, 0], [1, 1, 0]] rfl
      (by norm_num [LotkaVolterraCompetitor.simulate,
        LotkaVolterraCompetitor.integrator, LotkaVolterraCompetitor.initial_state,
        LotkaVolterraCompetitor.derivatives, EulerIntegrator.solve, solveAux,
        eulerUpdate])⟩

/-- Claim C4: for an SIR model with positive total population the three
returned derivative components sum to exactly 0, so in exact rational
arithmetic each Euler step preserves the component sum: every recorded
state of simulate sums to exactly s0 + i0 + r0. -/
theorem sir_mass_conserved (m : SIRModel) (t_end : ℚ) (fuel : ℕ)
    (times : List ℚ) (states : List (List ℚ))
    (hN : 0 < m.N)
    (h : m.simulate t_end fuel = some (times, states)) :
    (∀ y t dy, m.derivatives y t = some dy → dy.sum = 0) ∧
    ∀ z ∈ states, z.sum = m.s0 + m.i0 + m.r0 := by
  have hsum : ∀ y t dy, m.derivatives y t = some dy → dy.sum = 0 := by
    intro y t dy hdy
    rcases y with _ | ⟨s, _ | ⟨i, _ | ⟨r, _ | ⟨w, ws⟩⟩⟩⟩
    · exact Option.noConfusion hdy
    · exact Option.noConfusion hdy
    · exact Option.noConfusion hdy
    · have hval : m.derivatives [s, i, r] t =
          some [-m.beta * s * i / m.N,
                m.beta * s * i / m.N - m.gamma * i,
                m.gamma * i] := rfl
      rw [hval] at hdy
      injection hdy with hdy
      subst hdy
      simp only [List.sum_cons, List.sum_nil]
      ring
    · exact Option.noConfusion hdy
  refine ⟨hsum, ?_⟩
  have hstep : ∀ y t dy,
      (∃ a b c, y = [a, b, c] ∧ a + b + c = m.s0 + m.i0 + m.r0) →
      m.derivatives y t = some dy →
      (∃ a b c, eulerUpdate m.dt y dy = [a, b, c] ∧
        a + b + c = m.s0 + m.i0 + m.r0) := by
    rintro y t dy ⟨a, b, c, rfl, habc⟩ hdy
    have hval : m.derivatives [a, b, c] t =
        some [-m.beta * a * b / m.N,
              m.beta * a * b / m.N - m.gamma * b,
              m.gamma * b] := rfl
    rw [hval] at hdy
    injection hdy with hdy
    subst hdy
    refine ⟨a + m.dt * (-m.beta * a * b / m.N),
            b + m.dt * (m.beta * a * b / m.N - m.gamma * b),
            c + m.dt * (m.gamma * b), rfl, ?_⟩
    linear_combination habc
  have h' : (solveAux m.dt m.derivatives fuel 0 t_end m.initial_state).map
      (fun r => ((0:ℚ) :: r.1, m.initial_state :: r.2)) = some (times, states) := h
  rcases hsa : solveAux m.dt m.derivatives fuel 0 t_end m.initial_state with _ | r
  · rw [hsa] at h'; simp at h'
  · rw [hsa] at h'
    obtain ⟨ts, ys⟩ := r
    simp only [Option.map_some', Option.some.injEq, Prod.mk.injEq] at h'
    obtain ⟨h1, h2⟩ := h'
    subst h2
    have hinit : ∃ a b c, m.initial_state = [a, b, c] ∧
        a + b + c = m.s0 + m.i0 + m.r0 :=
      ⟨m.s0, m.i0, m.r0, rfl, rfl⟩
    have hinv := solveAux_invariant m.dt m.derivatives t_end
      (fun y => ∃ a b c, y = [a, b, c] ∧ a + b + c = m.s0 + m.i0 + m.r0)
      hstep fuel 0 m.initial_state ts ys hsa hinit
    intro z hz
    rcases List.mem_cons.mp hz with hz | hz
    · subst hz
      obtain ⟨a, b, c, hab, habc⟩ := hinit
      rw [hab]
      simp only [List.sum_cons, List.sum_nil]
      linarith
    · obtain ⟨a, b, c, hab, habc⟩ := hinv z hz
      rw [hab]
      simp only [List.sum_cons, List.sum_nil]
      linarith

/-- Witness for C4: a one-step SIR run with total population 2; both
recorded states sum to exactly 2 = s0 + i0 + r0. -/
theorem sir_mass_conserved_witness :
    ((0:ℚ) < (SIRModel.mk 1 1 1 1 0 1).N ∧
      (SIRModel.mk 1 1 1 1 0 1).simulate 1 1 =
        some ([0, 1], [[1, 1, 0], [1/2, 1/2, 1]])) ∧
    ((∀ y t dy, (SIRModel.mk 1 1 1 1 0 1).derivatives y t = some dy →
        dy.sum = 0) ∧
      ∀ z ∈ ([[1, 1, 0], [1/2, 1/2, 1]] : List (List ℚ)),
        z.sum = (1:ℚ) + 1 + 0) :=
  ⟨⟨by norm_num [SIRModel.N],
      by norm_num [SIRModel.simulate, SIRModel.integrator, SIRModel.initial_state,
        SIRModel.derivatives, SIRModel.N, EulerIntegrator.solve, solveAux,
        eulerUpdate]⟩,
    sir_mass_conserved (SIRModel.mk 1 1 1 1 0 1) 1 1 [0, 1]
      [[1, 1, 0], [1/2, 1/2, 1]] (by norm_num [SIRModel.N])
      (by norm_num [SIRModel.simulate, SIRModel.integrator, SIRModel.initial_state,
        SIRModel.derivatives, SIRModel.N, EulerIntegrator.solve, solveAux,
        eulerUpdate])⟩

/-- Claim C8: with zero initial zombie and removed populations, every
recorded state of the zombie model's simulate has zombie and removed
components exactly 0: every production term of those compartments is
proportional to S*Z or to R, both of which start and stay at 0. -/
theorem zombie_stays_zero (m : ZombieModel) (t_end : ℚ) (fuel : ℕ)
    (times : List ℚ) (states : List (List ℚ))
    (hz : m.z0 = 0) (hr : m.r0 = 0)
    (h : m.simulate t_end fuel = some (times, states)) :
    ∀ z ∈ states, z[1]? = some (0:ℚ) ∧ z[2]? = some (0:ℚ) := by
  have hstep : ∀ y t dy, (∃ s, y = [s, 0, 0]) →
      m.derivatives y t = some dy →
      (∃ s, eulerUpdate m.dt y dy = [s, 0, 0]) := by
    rintro y t dy ⟨s, rfl⟩ hdy
    have hval : m.derivatives [s, (0:ℚ), (0:ℚ)] t =
        some [-m.beta * s * 0 - m.alpha * s * 0,
              m.beta * s * 0 + m.rho * 0 - m.alpha * s * 0,
              m.alpha * s * 0 - m.rho * 0] := rfl
    rw [hval] at hdy
    injection hdy with hdy
    subst hdy
    refine ⟨s + m.dt * (-m.beta * s * 0 - m.alpha * s * 0), ?_⟩
    have hupd : eulerUpdate m.dt [s, (0:ℚ), (0:ℚ)]
        [-m.beta * s * 0 - m.alpha * s * 0,
         m.beta * s * 0 + m.rho * 0 - m.alpha * s * 0,
         m.alpha * s * 0 - m.rho * 0] =
        [s + m.dt * (-m.beta * s * 0 - m.alpha * s * 0),
         0 + m.dt * (m.beta * s * 0 + m.rho * 0 - m.alpha * s * 0),
         0 + m.dt * (m.alpha * s * 0 - m.rho * 0)] := rfl
    rw [hupd]
    norm_num
  have h' : (solveAux m.dt m.derivatives fuel 0 t_end m.initial_state).map
      (fun r => ((0:ℚ) :: r.1, m.initial_state :: r.2)) = some (times, states) := h
  rcases hsa : solveAux m.dt m.derivatives fuel 0 t_end m.initial_state with _ | r
  · rw [hsa] at h'; simp at h'
  · rw [hsa] at h'
    obtain ⟨ts, ys⟩ := r
    simp only [Option.map_some', Option.some.injEq, Prod.mk.injEq] at h'
    obtain ⟨h1, h2⟩ := h'
    subst h2
    have hinit : ∃ s, m.initial_state = [s, 0, 0] :=
      ⟨m.s0, by simp [ZombieModel.initial_state, hz, hr]⟩
    have hinv := solveAux_invariant m.dt m.derivatives t_end
      (fun y => ∃ s, y = [s, 0, 0]) hstep fuel 0 m.initial_state ts ys hsa hinit
    intro z hz'
    rcases List.mem_cons.mp hz' with hz' | hz'
    · subst hz'
      obtain ⟨s, hs⟩ := hinit
      rw [hs]; exact ⟨rfl, rfl⟩
    · obtain ⟨s, hs⟩ := hinv z hz'
      rw [hs]; exact ⟨rfl, rfl⟩

/-- Witness for C8: a one-step run of the zombie model with z0 = r0 = 0;
both recorded states keep the last two components at 0. -/
theorem zombie_stays_zero_witness :
    ((ZombieModel.mk 1 1 1 1 0 0 1).z0 = 0 ∧
      (ZombieModel.mk 1 1 1 1 0 0 1).r0 = 0 ∧
      (ZombieModel.mk 1 1 1 1 0 0 1).simulate 1 1 =
        some ([0, 1], [[1, 0, 0], [1, 0, 0]])) ∧
    ∀ z ∈ ([[1, 0, 0], [1, 0, 0]] : List (List ℚ)),
      z[1]? = some (0:ℚ) ∧ z[2]? = some (0:ℚ) :=
  ⟨⟨rfl, rfl,
      by norm_num [ZombieModel.simulate, ZombieModel.integrator,
        ZombieModel.initial_state, ZombieModel.derivatives,
        EulerIntegrator.solve, solveAux, eulerUpdate]⟩,
    zombie_stays_zero (ZombieModel.mk 1 1 1 1 0 0 1) 1 1 [0, 1]
      [[1, 0, 0], [1, 0, 0]] rfl rfl
      (by norm_num [ZombieModel.simulate, ZombieModel.integrator,
        ZombieModel.initial_state, ZombieModel.derivatives,
        EulerIntegrator.solve, solveAux, eulerUpdate])⟩

/-- Claim C9: the zombie model's derivative components sum to exactly
-alpha*s*z, so one Euler step changes the component total from s + z + r
to s + z + r - dt*alpha*s*z; the total strictly decreases whenever dt,
alpha, s and z are all positive (total population is not conserved). -/
theorem zombie_total_change (m : ZombieModel) (s z r t : ℚ) (dy : List ℚ)
    (h : m.derivatives [s, z, r] t = some dy) :
    dy.sum = -(m.alpha * s * z) ∧
    (eulerUpdate m.dt [s, z, r] dy).sum =
      (s + z + r) - m.dt * (m.alpha * s * z) ∧
    (0 < m.dt → 0 < m.alpha → 0 < s → 0 < z →
      (eulerUpdate m.dt [s, z, r] dy).sum < s + z + r) := by
  have hval : m.derivatives [s, z, r] t =
      some [-m.beta * s * z - m.alpha * s * z,
            m.beta * s * z + m.rho * r - m.alpha * s * z,
            m.alpha * s * z - m.rho * r] := rfl
  rw [hval] at h
  injection h with h
  subst h
  have hupd : eulerUpdate m.dt [s, z, r]
      [-m.beta * s * z - m.alpha * s * z,
       m.beta * s * z + m.rho * r - m.alpha * s * z,
       m.alpha * s * z - m.rho * r] =
      [s + m.dt * (-m.beta * s * z - m.alpha * s * z),
       z + m.dt * (m.beta * s * z + m.rho * r - m.alpha * s * z),
       r + m.dt * (m.alpha * s * z - m.rho * r)] := rfl
  have hsum2 : (eulerUpdate m.dt [s, z, r]
      [-m.beta * s * z - m.alpha * s * z,
       m.beta * s * z + m.rho * r - m.alpha * s * z,
       m.alpha * s * z - m.rho * r]).sum =
      (s + z + r) - m.dt * (m.alpha * s * z) := by
    rw [hupd]
    simp only [List.sum_cons, List.sum_nil]
    ring
  refine ⟨?_, hsum2, ?_⟩
  · simp only [List.sum_cons, List.sum_nil]
    ring
  · intro h1 h2 h3 h4
    rw [hsum2]
    have hpos : 0 < m.dt * (m.alpha * s * z) := by positivity
    linarith

/-- Witness for C9: all parameters and components 1; the derivative sum is
-1 and the Euler step takes the total from 3 to 2. -/
theorem zombie_total_change_witness :
    ((ZombieModel.mk 1 1 1 1 1 1 1).derivatives [1, 1, 1] 0 =
        some [-2, 1, 0]) ∧
    (([-2, 1, 0] : List ℚ).sum = -((1:ℚ) * 1 * 1) ∧
      (eulerUpdate 1 [1, 1, 1] [-2, 1, 0]).sum =
        ((1:ℚ) + 1 + 1) - 1 * ((1:ℚ) * 1 * 1) ∧
      ((0:ℚ) < 1 → (0:ℚ) < 1 → (0:ℚ) < 1 → (0:ℚ) < 1 →
        (eulerUpdate 1 [1, 1, 1] [-2, 1, 0]).sum < (1:ℚ) + 1 + 1)) :=
  ⟨by norm_num [ZombieModel.derivatives],
    zombie_total_change (ZombieModel.mk 1 1 1 1 1 1 1) 1 1 1 0 [-2, 1, 0]
      (by norm_num [ZombieModel.derivatives])⟩
